import Mathlib

/-!
Verification of the retrieval core of the repository (backend/app/core/rag_pipeline.py).

The Python source is shallowly embedded: text is `List Char`, Python floats are
modelled as `ℚ` (the claims are about algorithmic structure, not rounding),
fallible collaborator calls (the vector-index bulk add) are modelled by an
explicit success flag, and Python's stable in-place `list.sort(key=..,
reverse=True)` is modelled by a stable descending insertion sort
(`sortDescBy`) whose stability is proved, not assumed.

Sections:
 * chunker (`RAGPipeline._split_text`, lines 333-375)
 * semantic-query post-processing (`RAGPipeline.query`, lines 196-218)
 * keyword search (`RAGPipeline._keyword_search`, lines 394-429)
 * indexing / removal (`RAGPipeline.index_document` 66-129,
   `RAGPipeline.remove_document` 131-158)
 * score fusion (`RAGPipeline._combine_search_results`, lines 435-496)
-/

/-- Python whitespace set used by `str.strip()` (ASCII portion, which is all
that matters for the characters the chunker manipulates). -/
def isPyWs (c : Char) : Bool :=
  c = ' ' || c = '\t' || c = '\n' || c = '\r' || c = '\x0b' || c = '\x0c'

/-- The sentence-terminal characters of `_split_text`
(`['.', '!', '?', '。', '！', '？']`). -/
def isSentenceEnd (c : Char) : Bool :=
  c = '.' || c = '!' || c = '?' || c = '。' || c = '！' || c = '？'

/-- The word-boundary characters of `_split_text` (`' '` or `'\n'`). -/
def isWordBreak (c : Char) : Bool :=
  c = ' ' || c = '\n'

/-- `text[i]` for an index that the source code only evaluates in range;
the default `'a'` is never observable (it is neither a sentence-terminal
nor a whitespace character). -/
def charAt (text : List Char) (i : Nat) : Char :=
  text.getD i 'a'

/-- Python `for i in range(i0, i0 - k, -1): if p i: break` — scan `k`
indices downward from `i0`, returning the first (largest) index satisfying
`p`, like the backward boundary search of `_split_text`. -/
def searchDesc (p : Nat → Bool) : Nat → Nat → Option Nat
  | _, 0 => none
  | i, k + 1 => if p i then some i else searchDesc p (i - 1) k

/-- Python slice `text[a:b]`. -/
def pySlice (text : List Char) (a b : Nat) : List Char :=
  (text.drop a).take (b - a)

/-- Python `str.strip()`. -/
def pyStrip (l : List Char) : List Char :=
  ((l.dropWhile isPyWs).reverse.dropWhile isPyWs).reverse

/-- The boundary-adjusted cut position of one `_split_text` iteration:
start from `end = start + chunk_size`; if that is inside the text, first
search the last 100 characters backward for a sentence-terminal character
(requiring `i + 1 < len(text)`) and cut just after it; otherwise search the
last 50 characters backward for `' '`/`'\n'` and cut there; otherwise keep
the hard cut. -/
def computeEnd (text : List Char) (cs start : Nat) : Nat :=
  let e := start + cs
  if e < text.length then
    match searchDesc
        (fun i => isSentenceEnd (charAt text i) && decide (i + 1 < text.length))
        e (e - max start (e - 100)) with
    | some i => i + 1
    | none =>
      match searchDesc (fun i => isWordBreak (charAt text i))
          e (e - max start (e - 50)) with
      | some i => i
      | none => e
  else e

/-- `start = end - overlap if end < text_length else end` (line 373). -/
def nextStartP (text : List Char) (cs ov start : Nat) : Nat :=
  let e := computeEnd text cs start
  if e < text.length then e - ov else e

/-- The `while start < text_length` loop of `_split_text`, with explicit
fuel (the loop strictly advances `start`, so `text.length + 1` fuel is
always enough; fuel-independence is proved below). -/
def splitTextAux (text : List Char) (cs ov : Nat) : Nat → Nat → List (List Char)
  | 0, _ => []
  | fuel + 1, start =>
    if start < text.length then
      let e := computeEnd text cs start
      let chunk := pyStrip (pySlice text start e)
      let rest := splitTextAux text cs ov fuel (nextStartP text cs ov start)
      if chunk = [] then rest else chunk :: rest
    else []

/-- `RAGPipeline._split_text` with the configured parameters
`chunk_size = 500`, `chunk_overlap = 50` (`__init__`, lines 62-64). -/
def splitText (text : List Char) : List (List Char) :=
  splitTextAux text 500 50 (text.length + 1) 0

/-- Python `str.lower()` (character-wise; faithful for the ASCII text the
keyword search lower-cases). -/
def pyLower (s : List Char) : List Char :=
  s.map Char.toLower

/-- Accumulator pass of Python's argumentless `str.split()`: split on runs
of whitespace, discarding empty pieces. -/
def splitWsAux : List Char → List Char → List (List Char)
  | [], acc => if acc = [] then [] else [acc.reverse]
  | c :: rest, acc =>
    if isPyWs c then
      if acc = [] then splitWsAux rest [] else acc.reverse :: splitWsAux rest []
    else splitWsAux rest (c :: acc)

/-- Python `str.split()` with no arguments. -/
def splitWs (s : List Char) : List (List Char) :=
  splitWsAux s []

/-- Left-to-right non-overlapping occurrence scan behind `str.count`:
`skip` is the number of positions still covered by the previous match. -/
def countOccsGo (sub : List Char) : List Char → Nat → Nat
  | [], _ => 0
  | c :: rest, 0 =>
    if List.isPrefixOf sub (c :: rest) then
      1 + countOccsGo sub rest (sub.length - 1)
    else countOccsGo sub rest 0
  | _ :: rest, k + 1 => countOccsGo sub rest k

/-- Python `s.count(sub)` for a non-empty `sub` (query terms produced by
`split()` are never empty): the number of non-overlapping occurrences of
`sub` in `s`, scanning left to right. -/
def countOccs (sub s : List Char) : Nat :=
  countOccsGo sub s 0

/-- The per-chunk scoring loop of `_keyword_search` (lines 413-416):
`for term in query_terms: if term in doc_lower: score += doc_lower.count(term)`. -/
def chunkScore (terms : List (List Char)) (docLower : List Char) : Nat :=
  terms.foldl
    (fun score term =>
      if countOccs term docLower ≠ 0 then score + countOccs term docLower
      else score)
    0

/-- A chunk record stored in the vector index (ChromaDB document +
metadata written by `index_document`, lines 102-114). -/
structure StoredChunk where
  id : String
  document_id : String
  chunk_index : Nat
  text : List Char
  excerpt : List Char
deriving DecidableEq

/-- A nearest neighbor returned by the vector index inside
`RAGPipeline.query` (id, document text, cosine distance). -/
structure Neighbor where
  id : String
  document : List Char
  distance : ℚ
deriving DecidableEq

/-- A processed semantic-search result (lines 209-215). -/
structure QueryResult where
  id : String
  document : List Char
  confidence : ℚ
  distance : ℚ
deriving DecidableEq

/-- A keyword-search result (lines 419-425). -/
structure KeywordResult where
  id : String
  document : List Char
  confidence : ℚ
  score : Nat
deriving DecidableEq

/-- The id/confidence part of a search result consumed by
`_combine_search_results` (the only fields that algorithm reads). -/
structure SearchHit where
  id : String
  confidence : ℚ
deriving DecidableEq

/-- An entry of the fusion map built by `_combine_search_results`
(lines 460-490). -/
structure FusedResult where
  id : String
  semantic_confidence : ℚ
  keyword_confidence : ℚ
  combined_confidence : ℚ
deriving DecidableEq

/-- Insert `r` into a descending-sorted list, before the first element
whose key is ≤ the key of `r`; equal keys keep the earlier-input element
first, matching the stability of Python's `list.sort`. -/
def insertDescBy (key : α → ℚ) (r : α) : List α → List α
  | [] => [r]
  | x :: xs => if key x ≤ key r then r :: x :: xs else x :: insertDescBy key r xs

/-- Stable sort by `key` descending — the model of Python's
`list.sort(key=.., reverse=True)` (a stable sort that does not reverse
ties). -/
def sortDescBy (key : α → ℚ) : List α → List α
  | [] => []
  | x :: xs => insertDescBy key x (sortDescBy key xs)

/-- Result post-processing of `RAGPipeline.query` (lines 196-218): convert
each retrieved distance `d` to `confidence = 1 - d`, keep results with
`confidence >= min_confidence`, then stable-sort by confidence descending. -/
def processQueryResults (neighbors : List Neighbor) (minConfidence : ℚ) :
    List QueryResult :=
  let processed := neighbors.filterMap fun nb =>
    let conf := 1 - nb.distance
    if minConfidence ≤ conf then some ⟨nb.id, nb.document, conf, nb.distance⟩
    else none
  sortDescBy (fun r => r.confidence) processed

/-- `RAGPipeline._keyword_search` (lines 394-429) on the stored chunks the
(possibly `document_ids`-filtered) `collection.get` returned: lower-case
and split the query, score every chunk by summed term-occurrence counts,
keep positive scores with confidence `min(score / len(terms), 1.0)`,
stable-sort by raw score descending, return the first `n_results`. -/
def keywordSearch (queryText : List Char) (nResults : Nat)
    (chunks : List StoredChunk) : List KeywordResult :=
  let terms := splitWs (pyLower queryText)
  let results := chunks.filterMap fun c =>
    let docLower := pyLower c.text
    let score := chunkScore terms docLower
    if 0 < score then
      some ⟨c.id, c.text, min ((score : ℚ) / (terms.length : ℚ)) 1, score⟩
    else none
  (sortDescBy (fun r => (r.score : ℚ)) results).take nResults

/-- Chunk records built by `index_document` (lines 102-114):
`chunk_id = "{document_id}_chunk_{i}"`, `chunk_index = i`, and the
100-character excerpt with `"..."` appended when truncated. -/
def mkChunks (docId : String) (chunks : List (List Char)) : List StoredChunk :=
  chunks.mapIdx fun i c =>
    ⟨docId ++ "_chunk_" ++ toString i, docId, i, c,
      if 100 < c.length then c.take 100 ++ ['.', '.', '.'] else c⟩

/-- `RAGPipeline.index_document` (lines 66-129). The embedding/bulk-add
collaborator round trip is modelled by the success flag `addOk`
(`collection.add` either commits the chunk batch or raises; a raise is
caught and converted to `False`). Zero chunks short-circuit to `False`
before anything is written. -/
def indexDocument (addOk : Bool) (docId : String) (text : List Char)
    (st : List StoredChunk) : Bool × List StoredChunk :=
  let chunks := splitText text
  if chunks.isEmpty then (false, st)
  else if addOk then (true, st ++ mkChunks docId chunks)
  else (false, st)

/-- `RAGPipeline.remove_document` (lines 131-158): fetch the ids of all
chunks whose metadata `document_id` matches, return `False` if there are
none, otherwise delete exactly those ids and return `True`. -/
def removeDocument (docId : String) (st : List StoredChunk) :
    Bool × List StoredChunk :=
  let ids := (st.filter fun c => c.document_id = docId).map (·.id)
  if ids.isEmpty then (false, st)
  else (true, st.filter fun c => !decide (c.id ∈ ids))

/-- One step of the keyword pass of `_combine_search_results`
(lines 472-490): update the existing entry in place (set
`keyword_confidence`, recompute `combined_confidence`) or append a
keyword-only entry. -/
def combineStep (sw kw : ℚ) (acc : List FusedResult) (r : SearchHit) :
    List FusedResult :=
  if acc.any (fun e => decide (e.id = r.id)) then
    acc.map fun e =>
      if e.id = r.id then
        ⟨e.id, e.semantic_confidence, r.confidence,
          e.semantic_confidence * sw + r.confidence * kw⟩
      else e
  else acc ++ [⟨r.id, 0, r.confidence, r.confidence * kw⟩]

/-- `RAGPipeline._combine_search_results` (lines 435-496): normalize the
two weights by their sum, seed the insertion-ordered map with the semantic
results, merge the keyword results, and stable-sort the map's values by
`combined_confidence` descending. -/
def combineSearchResults (semanticResults keywordResults : List SearchHit)
    (keywordWeight semanticWeight : ℚ) : List FusedResult :=
  let total := keywordWeight + semanticWeight
  let kw := keywordWeight / total
  let sw := semanticWeight / total
  let base := semanticResults.map fun r =>
    ⟨r.id, r.confidence, 0, r.confidence * sw⟩
  let merged := keywordResults.foldl (combineStep sw kw) base
  sortDescBy (fun e => e.combined_confidence) merged

/-! ### Stable descending sort: permutation, sortedness, stability -/

theorem perm_insertDescBy (key : α → ℚ) (r : α) :
    ∀ l : List α, (insertDescBy key r l).Perm (r :: l)
  | [] => List.Perm.refl _
  | x :: xs => by
    unfold insertDescBy
    by_cases h : key x ≤ key r
    · simp [h]
    · simp only [h, if_false]
      exact ((perm_insertDescBy key r xs).cons x).trans (List.Perm.swap r x xs)

theorem mem_insertDescBy {key : α → ℚ} {r a : α} {l : List α} :
    a ∈ insertDescBy key r l ↔ a = r ∨ a ∈ l := by
  rw [(perm_insertDescBy key r l).mem_iff]
  simp

theorem perm_sortDescBy (key : α → ℚ) :
    ∀ l : List α, (sortDescBy key l).Perm l
  | [] => List.Perm.refl _
  | x :: xs => by
    unfold sortDescBy
    exact (perm_insertDescBy key x (sortDescBy key xs)).trans
      ((perm_sortDescBy key xs).cons x)

theorem pairwise_insertDescBy {key : α → ℚ} {r : α} :
    ∀ {l : List α}, l.Pairwise (fun a b => key b ≤ key a) →
      (insertDescBy key r l).Pairwise (fun a b => key b ≤ key a) := by
  intro l
  induction l with
  | nil => intro _; simp [insertDescBy]
  | cons x xs ih =>
    intro h
    rw [List.pairwise_cons] at h
    unfold insertDescBy
    by_cases hx : key x ≤ key r
    · simp only [hx, if_true]
      rw [List.pairwise_cons]
      refine ⟨?_, List.pairwise_cons.2 h⟩
      intro b hb
      rcases List.mem_cons.1 hb with rfl | hb
      · exact hx
      · exact (h.1 b hb).trans hx
    · simp only [hx, if_false]
      rw [List.pairwise_cons]
      refine ⟨?_, ih h.2⟩
      intro b hb
      rcases mem_insertDescBy.1 hb with rfl | hb
      · exact le_of_lt (lt_of_not_le hx)
      · exact h.1 b hb

theorem pairwise_sortDescBy (key : α → ℚ) :
    ∀ l : List α, (sortDescBy key l).Pairwise (fun a b => key b ≤ key a)
  | [] => by simp [sortDescBy]
  | x :: xs => by
    unfold sortDescBy
    exact pairwise_insertDescBy (pairwise_sortDescBy key xs)

theorem filter_insertDescBy_eq {key : α → ℚ} {r : α} {v : ℚ} (hr : key r = v) :
    ∀ l : List α,
      (insertDescBy key r l).filter (fun a => decide (key a = v)) =
        r :: l.filter (fun a => decide (key a = v))
  | [] => by simp [insertDescBy, hr]
  | x :: xs => by
    unfold insertDescBy
    by_cases hx : key x ≤ key r
    · simp only [hx, if_true]
      rw [List.filter_cons]
      simp [hr]
    · have hxv : ¬ key x = v := fun hxe => hx (le_of_eq (hxe.trans hr.symm))
      simp only [hx, if_false]
      rw [List.filter_cons, List.filter_cons, filter_insertDescBy_eq hr xs]
      simp [hxv]

theorem filter_insertDescBy_ne {key : α → ℚ} {r : α} {v : ℚ} (hr : key r ≠ v) :
    ∀ l : List α,
      (insertDescBy key r l).filter (fun a => decide (key a = v)) =
        l.filter (fun a => decide (key a = v))
  | [] => by simp [insertDescBy, hr]
  | x :: xs => by
    unfold insertDescBy
    by_cases hx : key x ≤ key r
    · simp only [hx, if_true]
      rw [List.filter_cons]
      simp [hr]
    · simp only [hx, if_false]
      rw [List.filter_cons, List.filter_cons, filter_insertDescBy_ne hr xs]

theorem filter_sortDescBy (key : α → ℚ) (v : ℚ) :
    ∀ l : List α,
      (sortDescBy key l).filter (fun a => decide (key a = v)) =
        l.filter (fun a => decide (key a = v))
  | [] => rfl
  | x :: xs => by
    unfold sortDescBy
    by_cases hx : key x = v
    · rw [filter_insertDescBy_eq hx, filter_sortDescBy key v xs, List.filter_cons]
      simp [hx]
    · rw [filter_insertDescBy_ne hx, filter_sortDescBy key v xs, List.filter_cons]
      simp [hx]

/-! ### Semantic query post-processing -/

theorem processQueryResults_eq (neighbors : List Neighbor) (minConfidence : ℚ) :
    processQueryResults neighbors minConfidence =
      sortDescBy (fun r => r.confidence)
        (neighbors.filterMap fun nb =>
          if minConfidence ≤ 1 - nb.distance then
            some ⟨nb.id, nb.document, 1 - nb.distance, nb.distance⟩
          else none) := rfl

/-- C4: `query` keeps exactly the retrieved neighbors whose confidence
`1 - distance` is at least `min_confidence` (so no returned result falls
below the threshold and each result's confidence is `1 - distance`), and
returns them sorted by confidence descending with ties kept in original
retrieval order (the per-confidence-class sublists of the output equal
those of the filtered input, i.e. the sort is stable). -/
theorem query_filters_and_sorts_stably (neighbors : List Neighbor)
    (minConfidence : ℚ) :
    (∀ r ∈ processQueryResults neighbors minConfidence,
        minConfidence ≤ r.confidence ∧ r.confidence = 1 - r.distance) ∧
    (processQueryResults neighbors minConfidence).Perm
      (neighbors.filterMap fun nb =>
        if minConfidence ≤ 1 - nb.distance then
          some ⟨nb.id, nb.document, 1 - nb.distance, nb.distance⟩
        else none) ∧
    (processQueryResults neighbors minConfidence).Pairwise
      (fun a b => b.confidence ≤ a.confidence) ∧
    ∀ v : ℚ,
      (processQueryResults neighbors minConfidence).filter
          (fun r => decide (r.confidence = v)) =
        (neighbors.filterMap fun nb =>
          if minConfidence ≤ 1 - nb.distance then
            some ⟨nb.id, nb.document, 1 - nb.distance, nb.distance⟩
          else none).filter (fun r => decide (r.confidence = v)) := by
  rw [processQueryResults_eq]
  refine ⟨?_, perm_sortDescBy _ _, pairwise_sortDescBy _ _,
    fun v => filter_sortDescBy _ v _⟩
  intro r hr
  have hr' := (perm_sortDescBy (fun r : QueryResult => r.confidence) _).mem_iff.1 hr
  rw [List.mem_filterMap] at hr'
  obtain ⟨nb, _, heq⟩ := hr'
  by_cases h : minConfidence ≤ 1 - nb.distance
  · rw [if_pos h] at heq
    cases heq
    exact ⟨h, rfl⟩
  · rw [if_neg h] at heq
    cases heq

theorem query_filters_and_sorts_stably_witness :
    (0 : ℚ) ≤ (QueryResult.mk "n1" [] 1 0).confidence ∧
    (QueryResult.mk "n1" [] 1 0).confidence =
      1 - (QueryResult.mk "n1" [] 1 0).distance :=
  (query_filters_and_sorts_stably [⟨"n1", [], 0⟩] 0).1
    ⟨"n1", [], 1, 0⟩ (by simp [processQueryResults_eq, sortDescBy, insertDescBy])

/-! ### Indexing and removal -/

/-- C5: `index_document` returns `true` exactly when chunking produced at
least one chunk and the bulk add to the vector index succeeded; when the
text yields zero chunks (in particular for empty text) it returns `false`
and leaves the index untouched (the model is total, mirroring the
`try/except` that converts any collaborator exception into `False`). -/
theorem index_document_success_iff (addOk : Bool) (docId : String)
    (text : List Char) (st : List StoredChunk) :
    ((indexDocument addOk docId text st).1 = true ↔
      splitText text ≠ [] ∧ addOk = true) ∧
    (splitText text = [] → indexDocument addOk docId text st = (false, st)) ∧
    indexDocument addOk docId [] st = (false, st) := by
  have hsplit : splitText ([] : List Char) = [] := rfl
  unfold indexDocument
  by_cases hc : splitText text = []
  · simp [hc, hsplit]
  · have hne : (splitText text).isEmpty = false := by
      simp [List.isEmpty_iff, hc]
    cases addOk <;> simp [hc, hne, hsplit]

theorem index_document_success_iff_witness :
    indexDocument true "doc" [] [] = (false, []) :=
  (index_document_success_iff true "doc" [] []).2.1 rfl

/-- C6: `remove_document` returns `false` and leaves the index unchanged
when no chunk carries the given `document_id`; consequently a second
`remove_document` for the same id (after any first call) returns `false`
and leaves the state unchanged. -/
theorem removeDocument_of_none {docId : String} {st : List StoredChunk}
    (h : (st.filter fun c => decide (c.document_id = docId)) = []) :
    removeDocument docId st = (false, st) := by
  unfold removeDocument
  simp [h]

theorem removeDocument_of_found {docId : String} {st : List StoredChunk}
    (h : (st.filter fun c => decide (c.document_id = docId)) ≠ []) :
    removeDocument docId st =
      (true, st.filter fun c =>
        !decide (c.id ∈
          ((st.filter fun c => decide (c.document_id = docId)).map (·.id)))) := by
  unfold removeDocument
  have hids :
      (((st.filter fun c => decide (c.document_id = docId)).map
        (·.id)).isEmpty) = false := by
    simp [List.isEmpty_iff, h]
  simp only [hids, Bool.false_eq_true, if_false]

theorem remove_document_idempotent (docId : String) (st : List StoredChunk) :
    ((st.filter fun c => decide (c.document_id = docId)) = [] →
      removeDocument docId st = (false, st)) ∧
    removeDocument docId (removeDocument docId st).2 =
      (false, (removeDocument docId st).2) := by
  refine ⟨removeDocument_of_none, ?_⟩
  by_cases h : (st.filter fun c => decide (c.document_id = docId)) = []
  · rw [removeDocument_of_none h]
    exact removeDocument_of_none h
  · rw [removeDocument_of_found h]
    apply removeDocument_of_none
    rw [List.filter_eq_nil_iff]
    intro c hc
    rw [List.mem_filter] at hc
    obtain ⟨hcst, hcid⟩ := hc
    simp only [Bool.not_eq_true', decide_eq_false_iff_not] at hcid
    intro hdoc
    exact hcid (List.mem_map.2 ⟨c, List.mem_filter.2 ⟨hcst, by simp [hdoc]⟩, rfl⟩)

theorem remove_document_idempotent_witness :
    removeDocument "d" [] = (false, []) :=
  (remove_document_idempotent "d" []).1 rfl

/-! ### Keyword search -/

theorem keywordSearch_eq (q : List Char) (n : Nat) (chunks : List StoredChunk) :
    keywordSearch q n chunks =
      (sortDescBy (fun r => (r.score : ℚ))
        (chunks.filterMap fun c =>
          if 0 < chunkScore (splitWs (pyLower q)) (pyLower c.text) then
            some ⟨c.id, c.text,
              min ((chunkScore (splitWs (pyLower q)) (pyLower c.text) : ℚ) /
                ((splitWs (pyLower q)).length : ℚ)) 1,
              chunkScore (splitWs (pyLower q)) (pyLower c.text)⟩
          else none)).take n := rfl

/-- C10: a query that splits into zero terms (empty or whitespace-only)
makes `_keyword_search` return the empty result list (its model is total:
nothing is raised), and the `score / len(query_terms)` division is never
reached with a zero divisor because a positive chunk score forces at least
one query term. -/
theorem keyword_search_empty_terms (queryText : List Char) (nResults : Nat)
    (chunks : List StoredChunk) :
    (splitWs (pyLower queryText) = [] →
      keywordSearch queryText nResults chunks = []) ∧
    ∀ (terms : List (List Char)) (docLower : List Char),
      0 < chunkScore terms docLower → terms ≠ [] := by
  constructor
  · intro h
    rw [keywordSearch_eq, h]
    have hfm :
        (List.filterMap (fun _ : StoredChunk => (none : Option KeywordResult))
          chunks) = [] := by
      simp
    simp [chunkScore, hfm, sortDescBy]
  · rintro terms docLower hpos rfl
    simp [chunkScore] at hpos

theorem keyword_search_empty_terms_witness :
    keywordSearch [' '] 3 [] = [] :=
  (keyword_search_empty_terms [' '] 3 []).1 (by decide)

/-- C7: for a query with at least one term, `_keyword_search` scores each
stored chunk by summing substring-occurrence counts of the lower-cased
terms over the lower-cased chunk text, keeps only chunks with positive
total score, gives each kept chunk confidence
`min(score / len(query_terms), 1.0)`, sorts by the raw integer score
descending (stably — the per-score-class sublists of the sorted list equal
those of the scored list, so ties keep chunk-store order; in particular
the sort key is the unclamped score, not the clamped confidence), and
returns the first `n_results` of that ranking (every positive-score chunk
is returned whenever fewer than `n_results` results come back). -/
theorem keyword_search_scores_and_ranks (queryText : List Char)
    (nResults : Nat) (chunks : List StoredChunk)
    (hterms : splitWs (pyLower queryText) ≠ []) :
    (keywordSearch queryText nResults chunks).length ≤ nResults ∧
    (∀ r ∈ keywordSearch queryText nResults chunks,
      0 < r.score ∧
      r.score = chunkScore (splitWs (pyLower queryText)) (pyLower r.document) ∧
      r.confidence =
        min ((r.score : ℚ) / ((splitWs (pyLower queryText)).length : ℚ)) 1) ∧
    (keywordSearch queryText nResults chunks).Pairwise
      (fun a b => b.score ≤ a.score) ∧
    (∀ c ∈ chunks,
      0 < chunkScore (splitWs (pyLower queryText)) (pyLower c.text) →
      (keywordSearch queryText nResults chunks).length < nResults →
      ∃ r ∈ keywordSearch queryText nResults chunks,
        r.id = c.id ∧ r.document = c.text ∧
        r.score = chunkScore (splitWs (pyLower queryText)) (pyLower c.text)) ∧
    ∀ v : ℚ,
      (sortDescBy (fun r => (r.score : ℚ))
        (chunks.filterMap fun c =>
          if 0 < chunkScore (splitWs (pyLower queryText)) (pyLower c.text) then
            some (⟨c.id, c.text,
              min ((chunkScore (splitWs (pyLower queryText))
                  (pyLower c.text) : ℚ) /
                ((splitWs (pyLower queryText)).length : ℚ)) 1,
              chunkScore (splitWs (pyLower queryText)) (pyLower c.text)⟩ :
                KeywordResult)
          else none)).filter (fun r => decide ((r.score : ℚ) = v)) =
      (chunks.filterMap fun c =>
        if 0 < chunkScore (splitWs (pyLower queryText)) (pyLower c.text) then
          some (⟨c.id, c.text,
            min ((chunkScore (splitWs (pyLower queryText))
                (pyLower c.text) : ℚ) /
              ((splitWs (pyLower queryText)).length : ℚ)) 1,
            chunkScore (splitWs (pyLower queryText)) (pyLower c.text)⟩ :
              KeywordResult)
        else none).filter (fun r => decide ((r.score : ℚ) = v)) := by
  rw [keywordSearch_eq]
  refine ⟨List.length_take_le _ _, ?_, ?_, ?_, fun v => filter_sortDescBy _ v _⟩
  · intro r hr
    have hr1 := (perm_sortDescBy (fun r : KeywordResult => (r.score : ℚ)) _).mem_iff.1
      (List.mem_of_mem_take hr)
    rw [List.mem_filterMap] at hr1
    obtain ⟨c, _, heq⟩ := hr1
    by_cases hs : 0 < chunkScore (splitWs (pyLower queryText)) (pyLower c.text)
    · rw [if_pos hs] at heq
      cases heq
      exact ⟨hs, rfl, rfl⟩
    · rw [if_neg hs] at heq
      cases heq
  · refine List.Pairwise.imp ?_
      (List.Pairwise.sublist (List.take_sublist _ _) (pairwise_sortDescBy _ _))
    intro a b h
    exact_mod_cast h
  · intro c hc hpos hlen
    have hmem : (⟨c.id, c.text,
        min ((chunkScore (splitWs (pyLower queryText)) (pyLower c.text) : ℚ) /
          ((splitWs (pyLower queryText)).length : ℚ)) 1,
        chunkScore (splitWs (pyLower queryText)) (pyLower c.text)⟩ :
          KeywordResult) ∈
        sortDescBy (fun r => (r.score : ℚ))
          (chunks.filterMap fun c =>
            if 0 < chunkScore (splitWs (pyLower queryText)) (pyLower c.text) then
              some ⟨c.id, c.text,
                min ((chunkScore (splitWs (pyLower queryText))
                    (pyLower c.text) : ℚ) /
                  ((splitWs (pyLower queryText)).length : ℚ)) 1,
                chunkScore (splitWs (pyLower queryText)) (pyLower c.text)⟩
            else none) := by
      rw [(perm_sortDescBy _ _).mem_iff, List.mem_filterMap]
      exact ⟨c, hc, by rw [if_pos hpos]⟩
    have htake :
        (sortDescBy (fun r : KeywordResult => (r.score : ℚ))
          (chunks.filterMap fun c =>
            if 0 < chunkScore (splitWs (pyLower queryText)) (pyLower c.text) then
              some ⟨c.id, c.text,
                min ((chunkScore (splitWs (pyLower queryText))
                    (pyLower c.text) : ℚ) /
                  ((splitWs (pyLower queryText)).length : ℚ)) 1,
                chunkScore (splitWs (pyLower queryText)) (pyLower c.text)⟩
            else none)).take nResults =
          sortDescBy (fun r : KeywordResult => (r.score : ℚ))
            (chunks.filterMap fun c =>
              if 0 < chunkScore (splitWs (pyLower queryText)) (pyLower c.text) then
                some ⟨c.id, c.text,
                  min ((chunkScore (splitWs (pyLower queryText))
                      (pyLower c.text) : ℚ) /
                    ((splitWs (pyLower queryText)).length : ℚ)) 1,
                  chunkScore (splitWs (pyLower queryText)) (pyLower c.text)⟩
              else none) := by
      apply List.take_of_length_le
      rw [List.length_take] at hlen
      omega
    rw [htake]
    exact ⟨_, hmem, rfl, rfl, rfl⟩

theorem keyword_search_scores_and_ranks_witness :
    (keywordSearch ['c', 'a', 't'] 5
      [⟨"c1", "d", 0, ['c', 'a', 't'], ['c', 'a', 't']⟩]).length ≤ 5 :=
  (keyword_search_scores_and_ranks ['c', 'a', 't'] 5
    [⟨"c1", "d", 0, ['c', 'a', 't'], ['c', 'a', 't']⟩] (by decide)).1

/-! ### Confidence bounds (C1) -/

theorem processQueryResults_unclamped_demo :
    processQueryResults [⟨"n", [], (3 : ℚ)/2⟩] (-1) =
      [⟨"n", [], -(1/2 : ℚ), (3 : ℚ)/2⟩] := by
  have hc : (-1 : ℚ) ≤ 1 - 3/2 := by norm_num
  have hv : (1 : ℚ) - 3/2 = -(1/2) := by norm_num
  rw [processQueryResults_eq]
  simp only [List.filterMap_cons, List.filterMap_nil, hc, if_true]
  simp only [hv, sortDescBy, insertDescBy]

/-- C1 counterexample: for the legitimate cosine distance `3/2` and
`min_confidence = -1`, `query` returns a result whose confidence is
`-1/2`, outside `[0, 1]`: the semantic path performs no clamping. -/
theorem confidence_bounds_counterexample :
    ¬ (∀ r ∈ processQueryResults [⟨"n", [], (3 : ℚ)/2⟩] (-1),
        0 ≤ r.confidence ∧ r.confidence ≤ 1) := by
  intro h
  have hmem : (⟨"n", [], -(1/2 : ℚ), (3 : ℚ)/2⟩ : QueryResult) ∈
      processQueryResults [⟨"n", [], (3 : ℚ)/2⟩] (-1) := by
    rw [processQueryResults_unclamped_demo]
    exact List.mem_singleton.2 rfl
  have h0 := (h _ hmem).1
  norm_num at h0

/-- C1 (amended): the keyword path always returns confidences in `(0, 1]`
(the only clamping in the code is its `min(..., 1.0)`); the semantic path
performs no clamping — each returned confidence equals `1 - distance` and
is `≥ min_confidence`, so the returned confidences lie in `[0, 1]`
whenever every retrieved distance is nonnegative and `min_confidence ≥ 0`
(as in every call site), but not for arbitrary `min_confidence`. -/
theorem confidence_bounds_amended (neighbors : List Neighbor)
    (minConfidence : ℚ) (hd : ∀ nb ∈ neighbors, 0 ≤ nb.distance)
    (hm : 0 ≤ minConfidence) :
    (∀ r ∈ processQueryResults neighbors minConfidence,
      0 ≤ r.confidence ∧ r.confidence ≤ 1) ∧
    ∀ (q : List Char) (n : Nat) (chunks : List StoredChunk),
      ∀ r ∈ keywordSearch q n chunks,
        0 < r.confidence ∧ r.confidence ≤ 1 := by
  constructor
  · intro r hr
    rw [processQueryResults_eq] at hr
    have hr1 := (perm_sortDescBy (fun r : QueryResult => r.confidence) _).mem_iff.1 hr
    rw [List.mem_filterMap] at hr1
    obtain ⟨nb, hnb, heq⟩ := hr1
    by_cases h : minConfidence ≤ 1 - nb.distance
    · rw [if_pos h] at heq
      cases heq
      exact ⟨hm.trans h, by simpa using hd nb hnb⟩
    · rw [if_neg h] at heq
      cases heq
  · intro q n chunks r hr
    rw [keywordSearch_eq] at hr
    have hr1 := (perm_sortDescBy (fun r : KeywordResult => (r.score : ℚ)) _).mem_iff.1
      (List.mem_of_mem_take hr)
    rw [List.mem_filterMap] at hr1
    obtain ⟨c, _, heq⟩ := hr1
    by_cases hs : 0 < chunkScore (splitWs (pyLower q)) (pyLower c.text)
    · rw [if_pos hs] at heq
      cases heq
      refine ⟨lt_min ?_ one_pos, min_le_right _ _⟩
      apply div_pos (by exact_mod_cast hs)
      have hterms : splitWs (pyLower q) ≠ [] := by
        intro hnil
        rw [hnil] at hs
        simp [chunkScore] at hs
      exact_mod_cast List.length_pos.2 hterms
    · rw [if_neg hs] at heq
      cases heq

theorem confidence_bounds_amended_witness :
    (0 : ℚ) ≤ (QueryResult.mk "n1" [] 1 0).confidence ∧
    (QueryResult.mk "n1" [] 1 0).confidence ≤ 1 :=
  (confidence_bounds_amended [⟨"n1", [], 0⟩] 0 (by simp) le_rfl).1
    ⟨"n1", [], 1, 0⟩ (by simp [processQueryResults_eq, sortDescBy, insertDescBy])

/-! ### Fusion: lookup characterization of the result map -/

theorem find?_map_of_pred_eq {α β : Type} (f : α → β) (p : β → Bool)
    (q : α → Bool) (hf : ∀ a, p (f a) = q a) :
    ∀ l : List α, (l.map f).find? p = (l.find? q).map f
  | [] => rfl
  | a :: l => by
    rw [List.map_cons]
    by_cases h : q a = true
    · rw [List.find?_cons_of_pos _ ((hf a).trans h), List.find?_cons_of_pos _ h]
      rfl
    · rw [List.find?_cons_of_neg _ (by rw [hf]; exact h),
        List.find?_cons_of_neg _ h]
      exact find?_map_of_pred_eq f p q hf l

theorem find?_of_mem_nodup_ids {α : Type} {idOf : α → String} {l : List α}
    {x : α} (hx : x ∈ l) (hn : (l.map idOf).Nodup) :
    l.find? (fun y => decide (idOf y = idOf x)) = some x := by
  induction l with
  | nil => cases hx
  | cons a l ih =>
    rw [List.map_cons, List.nodup_cons] at hn
    by_cases h : idOf a = idOf x
    · rw [List.find?_cons_of_pos _ (by simp [h])]
      rcases List.mem_cons.1 hx with rfl | hxl
      · rfl
      · exact absurd (by rw [h]; exact List.mem_map.2 ⟨x, hxl, rfl⟩) hn.1
    · rw [List.find?_cons_of_neg _ (by simp [h])]
      rcases List.mem_cons.1 hx with rfl | hxl
      · exact absurd rfl h
      · exact ih hxl hn.2

theorem find?_id_eq_none {α : Type} {idOf : α → String} {l : List α}
    {i : String} (h : i ∉ l.map idOf) :
    l.find? (fun y => decide (idOf y = i)) = none := by
  rw [List.find?_eq_none]
  intro x hx
  simp only [decide_eq_true_eq]
  intro he
  exact h (he ▸ List.mem_map.2 ⟨x, hx, rfl⟩)

theorem combineStep_find?_ne (sw kw : ℚ) (acc : List FusedResult)
    (r : SearchHit) (i : String) (hne : i ≠ r.id) :
    (combineStep sw kw acc r).find? (fun a => decide (a.id = i)) =
      acc.find? (fun a => decide (a.id = i)) := by
  unfold combineStep
  by_cases hp : acc.any (fun e => decide (e.id = r.id)) = true
  · rw [if_pos hp]
    rw [find?_map_of_pred_eq _ _ (fun a => decide (a.id = i))
      (fun a => by by_cases h : a.id = r.id <;> simp [h]) acc]
    cases hfind : acc.find? (fun a => decide (a.id = i)) with
    | none => rfl
    | some x =>
      have hxid : x.id = i := by simpa using List.find?_some hfind
      have hxr : ¬ x.id = r.id := by rw [hxid]; exact hne
      simp [hxr]
  · rw [if_neg hp, List.find?_append]
    have hri : ¬ (r.id = i) := fun h => hne h.symm
    have hsing : ([(⟨r.id, 0, r.confidence, r.confidence * kw⟩ : FusedResult)]
        : List FusedResult).find? (fun a => decide (a.id = i)) = none := by
      simp [hri]
    rw [hsing, Option.or_none]

theorem combineStep_find?_present (sw kw : ℚ) (acc : List FusedResult)
    (r : SearchHit) (x : FusedResult)
    (hfind : acc.find? (fun a => decide (a.id = r.id)) = some x) :
    (combineStep sw kw acc r).find? (fun a => decide (a.id = r.id)) =
      some ⟨x.id, x.semantic_confidence, r.confidence,
        x.semantic_confidence * sw + r.confidence * kw⟩ := by
  unfold combineStep
  have hxp := List.find?_some hfind
  have hp : acc.any (fun e => decide (e.id = r.id)) = true := by
    rw [List.any_eq_true]
    exact ⟨x, List.mem_of_find?_eq_some hfind, hxp⟩
  rw [if_pos hp]
  rw [find?_map_of_pred_eq _ _ (fun a => decide (a.id = r.id))
    (fun a => by by_cases h : a.id = r.id <;> simp [h]) acc]
  rw [hfind]
  have hxid : x.id = r.id := by simpa using hxp
  simp [hxid]

theorem combineStep_find?_absent (sw kw : ℚ) (acc : List FusedResult)
    (r : SearchHit)
    (hfind : acc.find? (fun a => decide (a.id = r.id)) = none) :
    (combineStep sw kw acc r).find? (fun a => decide (a.id = r.id)) =
      some ⟨r.id, 0, r.confidence, r.confidence * kw⟩ := by
  unfold combineStep
  have hp : acc.any (fun e => decide (e.id = r.id)) = false := by
    rw [List.any_eq_false]
    rw [List.find?_eq_none] at hfind
    exact hfind
  rw [if_neg (by rw [hp]; exact Bool.false_ne_true), List.find?_append, hfind,
    Option.none_or]
  simp

theorem fold_find? (sw kw : ℚ) :
    ∀ (kws : List SearchHit) (acc : List FusedResult),
      (kws.map (·.id)).Nodup → ∀ i : String,
      (kws.foldl (combineStep sw kw) acc).find? (fun a => decide (a.id = i)) =
        match acc.find? (fun a => decide (a.id = i)),
            kws.find? (fun a => decide (a.id = i)) with
        | some x, some r => some ⟨x.id, x.semantic_confidence, r.confidence,
            x.semantic_confidence * sw + r.confidence * kw⟩
        | some x, none => some x
        | none, some r => some ⟨r.id, 0, r.confidence, r.confidence * kw⟩
        | none, none => none
  | [], acc, _, i => by
    cases h : acc.find? (fun a => decide (a.id = i)) <;> simp [h]
  | r :: rest, acc, hk, i => by
    have hk2 := by simpa using hk
    have hk' : (rest.map (·.id)).Nodup := hk2.2
    have hrid : r.id ∉ rest.map (·.id) := by
      intro hin
      obtain ⟨a, ha, haid⟩ := List.mem_map.1 hin
      exact hk2.1 a ha haid
    rw [List.foldl_cons, fold_find? sw kw rest (combineStep sw kw acc r) hk' i]
    by_cases hi : i = r.id
    · subst hi
      have hrest : rest.find? (fun a => decide (a.id = r.id)) = none :=
        find?_id_eq_none hrid
      have hhead : (r :: rest).find? (fun a => decide (a.id = r.id)) = some r :=
        List.find?_cons_of_pos _ (by simp)
      rw [hrest, hhead]
      cases hacc : acc.find? (fun a => decide (a.id = r.id)) with
      | some x =>
        rw [combineStep_find?_present sw kw acc r x hacc]
      | none =>
        rw [combineStep_find?_absent sw kw acc r hacc]
    · rw [combineStep_find?_ne sw kw acc r i hi]
      have hhead : (r :: rest).find? (fun a => decide (a.id = i)) =
          rest.find? (fun a => decide (a.id = i)) :=
        List.find?_cons_of_neg _
          (by simp only [decide_eq_true_eq]; exact fun h => hi h.symm)
      rw [hhead]

theorem combineStep_ids_cases (sw kw : ℚ) (acc : List FusedResult)
    (r : SearchHit) :
    ∀ e ∈ combineStep sw kw acc r, e.id ∈ acc.map (·.id) ∨ e.id = r.id := by
  unfold combineStep
  by_cases hp : acc.any (fun e => decide (e.id = r.id)) = true
  · rw [if_pos hp]
    intro e he
    obtain ⟨a, ha, rfl⟩ := List.mem_map.1 he
    left
    have : (if a.id = r.id then
        (⟨a.id, a.semantic_confidence, r.confidence,
          a.semantic_confidence * sw + r.confidence * kw⟩ : FusedResult)
      else a).id = a.id := by
      by_cases h : a.id = r.id <;> simp [h]
    rw [this]
    exact List.mem_map.2 ⟨a, ha, rfl⟩
  · rw [if_neg hp]
    intro e he
    rcases List.mem_append.1 he with h | h
    · exact Or.inl (List.mem_map.2 ⟨e, h, rfl⟩)
    · rcases List.mem_singleton.1 h with rfl
      exact Or.inr rfl

theorem fold_ids_cases (sw kw : ℚ) :
    ∀ (kws : List SearchHit) (acc : List FusedResult),
      ∀ e ∈ kws.foldl (combineStep sw kw) acc,
        e.id ∈ acc.map (·.id) ∨ e.id ∈ kws.map (·.id)
  | [], acc => by
    intro e he
    exact Or.inl (List.mem_map.2 ⟨e, he, rfl⟩)
  | r :: rest, acc => by
    intro e he
    rw [List.foldl_cons] at he
    rcases fold_ids_cases sw kw rest (combineStep sw kw acc r) e he with h | h
    · obtain ⟨a, ha, haid⟩ := List.mem_map.1 h
      rcases combineStep_ids_cases sw kw acc r a ha with h2 | h2
      · exact Or.inl (haid ▸ h2)
      · refine Or.inr ?_
        rw [List.map_cons, List.mem_cons]
        exact Or.inl (by rw [← haid, h2])
    · refine Or.inr ?_
      rw [List.map_cons, List.mem_cons]
      exact Or.inr h

theorem combineStep_ids (sw kw : ℚ) (acc : List FusedResult) (r : SearchHit) :
    (combineStep sw kw acc r).map (·.id) =
      if acc.any (fun e => decide (e.id = r.id)) then acc.map (·.id)
      else acc.map (·.id) ++ [r.id] := by
  unfold combineStep
  by_cases hp : acc.any (fun e => decide (e.id = r.id)) = true
  · rw [if_pos hp, if_pos hp, List.map_map]
    apply List.map_congr_left
    intro a _
    by_cases h : a.id = r.id <;> simp [h]
  · rw [if_neg hp, if_neg hp, List.map_append]
    rfl

theorem fold_ids_nodup (sw kw : ℚ) :
    ∀ (kws : List SearchHit) (acc : List FusedResult),
      (acc.map (·.id)).Nodup →
      ((kws.foldl (combineStep sw kw) acc).map (·.id)).Nodup
  | [], _, h => h
  | r :: rest, acc, h => by
    rw [List.foldl_cons]
    apply fold_ids_nodup sw kw rest
    rw [combineStep_ids]
    by_cases hp : acc.any (fun e => decide (e.id = r.id)) = true
    · rw [if_pos hp]
      exact h
    · rw [if_neg hp]
      have hnotin : r.id ∉ acc.map (·.id) := by
        intro hin
        obtain ⟨a, ha, haid⟩ := List.mem_map.1 hin
        rw [List.any_eq_true] at hp
        exact hp ⟨a, ha, by simp [haid]⟩
      simp [List.nodup_append, h, hnotin]

theorem base_ids (sw : ℚ) (sem : List SearchHit) :
    ((sem.map fun r =>
      (⟨r.id, r.confidence, 0, r.confidence * sw⟩ : FusedResult)).map (·.id)) =
      sem.map (·.id) := by
  rw [List.map_map]
  rfl

theorem base_find?_some (sw : ℚ) {sem : List SearchHit} {s : SearchHit}
    (hs : s ∈ sem) (hns : (sem.map (·.id)).Nodup) :
    (sem.map fun r =>
      (⟨r.id, r.confidence, 0, r.confidence * sw⟩ : FusedResult)).find?
        (fun a => decide (a.id = s.id)) =
      some ⟨s.id, s.confidence, 0, s.confidence * sw⟩ := by
  rw [find?_map_of_pred_eq _ _ (fun a => decide (a.id = s.id))
    (fun a => rfl) sem]
  rw [show sem.find? (fun a => decide (a.id = s.id)) = some s from
    find?_of_mem_nodup_ids hs hns]
  rfl

theorem base_find?_none (sw : ℚ) {sem : List SearchHit} {i : String}
    (h : i ∉ sem.map (·.id)) :
    (sem.map fun r =>
      (⟨r.id, r.confidence, 0, r.confidence * sw⟩ : FusedResult)).find?
        (fun a => decide (a.id = i)) = none := by
  rw [find?_map_of_pred_eq _ _ (fun a => decide (a.id = i)) (fun a => rfl) sem]
  rw [show sem.find? (fun a => decide (a.id = i)) = none from
    find?_id_eq_none h]
  rfl

theorem combineSearchResults_eq (sem kws : List SearchHit) (wk ws : ℚ) :
    combineSearchResults sem kws wk ws =
      sortDescBy (fun e => e.combined_confidence)
        (kws.foldl (combineStep (ws / (wk + ws)) (wk / (wk + ws)))
          (sem.map fun r =>
            ⟨r.id, r.confidence, 0, r.confidence * (ws / (wk + ws))⟩)) := rfl

/-- C3: `_combine_search_results` first normalizes the two weights so they
sum to 1, then gives every chunk id one fused entry whose combined score
is `semantic_confidence * ws'` for semantic-only chunks,
`keyword_confidence * wk'` for keyword-only chunks, and the weighted sum
for chunks present in both lists; the output contains exactly the chunk
ids of the two inputs and is sorted by combined score descending. Stated
for ids that are unique within each input list, as the two search passes
produce. -/
theorem fusion_weighted_combination (sem kws : List SearchHit) (wk ws : ℚ)
    (hwk : 0 ≤ wk) (hws : 0 ≤ ws) (hpos : 0 < wk + ws)
    (hns : (sem.map (·.id)).Nodup) (hnk : (kws.map (·.id)).Nodup) :
    wk / (wk + ws) + ws / (wk + ws) = 1 ∧
    (combineSearchResults sem kws wk ws).Pairwise
      (fun a b => b.combined_confidence ≤ a.combined_confidence) ∧
    (∀ s ∈ sem, s.id ∉ kws.map (·.id) →
      ∃ e ∈ combineSearchResults sem kws wk ws,
        e.id = s.id ∧ e.semantic_confidence = s.confidence ∧
        e.keyword_confidence = 0 ∧
        e.combined_confidence = s.confidence * (ws / (wk + ws))) ∧
    (∀ r ∈ kws, r.id ∉ sem.map (·.id) →
      ∃ e ∈ combineSearchResults sem kws wk ws,
        e.id = r.id ∧ e.semantic_confidence = 0 ∧
        e.keyword_confidence = r.confidence ∧
        e.combined_confidence = r.confidence * (wk / (wk + ws))) ∧
    (∀ s ∈ sem, ∀ r ∈ kws, s.id = r.id →
      ∃ e ∈ combineSearchResults sem kws wk ws,
        e.id = s.id ∧ e.semantic_confidence = s.confidence ∧
        e.keyword_confidence = r.confidence ∧
        e.combined_confidence =
          s.confidence * (ws / (wk + ws)) + r.confidence * (wk / (wk + ws))) ∧
    ∀ e ∈ combineSearchResults sem kws wk ws,
      e.id ∈ sem.map (·.id) ∨ e.id ∈ kws.map (·.id) := by
  have hnorm : wk / (wk + ws) + ws / (wk + ws) = 1 := by
    rw [div_add_div_same, div_self (ne_of_gt hpos)]
  rw [combineSearchResults_eq]
  refine ⟨hnorm, pairwise_sortDescBy _ _, ?_, ?_, ?_, ?_⟩
  · intro s hs hnot
    have hbase := base_find?_some (ws / (wk + ws)) hs hns
    have hkws : kws.find? (fun a => decide (a.id = s.id)) = none :=
      find?_id_eq_none hnot
    have hmf := fold_find? (ws / (wk + ws)) (wk / (wk + ws)) kws
      (sem.map fun r => ⟨r.id, r.confidence, 0,
        r.confidence * (ws / (wk + ws))⟩) hnk s.id
    rw [hbase, hkws] at hmf
    refine ⟨⟨s.id, s.confidence, 0, s.confidence * (ws / (wk + ws))⟩,
      ?_, rfl, rfl, rfl, rfl⟩
    rw [(perm_sortDescBy _ _).mem_iff]
    exact List.mem_of_find?_eq_some hmf
  · intro r hr hnot
    have hbase := base_find?_none (ws / (wk + ws)) hnot
    have hkws : kws.find? (fun a => decide (a.id = r.id)) = some r :=
      find?_of_mem_nodup_ids hr hnk
    have hmf := fold_find? (ws / (wk + ws)) (wk / (wk + ws)) kws
      (sem.map fun x => ⟨x.id, x.confidence, 0,
        x.confidence * (ws / (wk + ws))⟩) hnk r.id
    rw [hbase, hkws] at hmf
    refine ⟨⟨r.id, 0, r.confidence, r.confidence * (wk / (wk + ws))⟩,
      ?_, rfl, rfl, rfl, rfl⟩
    rw [(perm_sortDescBy _ _).mem_iff]
    exact List.mem_of_find?_eq_some hmf
  · intro s hs r hr hsr
    have hbase := base_find?_some (ws / (wk + ws)) hs hns
    have hkws : kws.find? (fun a => decide (a.id = s.id)) = some r := by
      rw [hsr]
      exact find?_of_mem_nodup_ids hr hnk
    have hmf := fold_find? (ws / (wk + ws)) (wk / (wk + ws)) kws
      (sem.map fun x => ⟨x.id, x.confidence, 0,
        x.confidence * (ws / (wk + ws))⟩) hnk s.id
    rw [hbase, hkws] at hmf
    refine ⟨⟨s.id, s.confidence, r.confidence,
      s.confidence * (ws / (wk + ws)) + r.confidence * (wk / (wk + ws))⟩,
      ?_, rfl, rfl, rfl, rfl⟩
    rw [(perm_sortDescBy _ _).mem_iff]
    exact List.mem_of_find?_eq_some hmf
  · intro e he
    rw [(perm_sortDescBy _ _).mem_iff] at he
    have := fold_ids_cases (ws / (wk + ws)) (wk / (wk + ws)) kws
      (sem.map fun r => ⟨r.id, r.confidence, 0,
        r.confidence * (ws / (wk + ws))⟩) e he
    rwa [base_ids] at this

theorem fusion_weighted_combination_witness :
    ∃ e ∈ combineSearchResults [⟨"a", 1⟩] [⟨"b", 1⟩] 0 1,
      e.id = "a" ∧ e.semantic_confidence = 1 ∧ e.keyword_confidence = 0 ∧
      e.combined_confidence = 1 * ((1 : ℚ) / (0 + 1)) := by
  have h := fusion_weighted_combination [⟨"a", 1⟩] [⟨"b", 1⟩] 0 1
    le_rfl zero_le_one (by simp) (by simp) (by simp)
  exact h.2.2.1 ⟨"a", 1⟩ (List.mem_singleton.2 rfl) (by simp)

/-- C8: under nonnegative weights already summing to 1 (so normalization
is the identity), a chunk present in both result lists with confidences
`s` (semantic) and `k` (keyword) receives combined score
`s * ws + k * wk`, which is at least the combined score of any chunk
present in only one list with the same individual confidence
(`s * ws` for a semantic-only chunk with confidence `s`, `k * wk` for a
keyword-only chunk with confidence `k`); since the fused output is sorted
by combined score descending, the both-sources chunk therefore ranks at
or above the single-source chunk. -/
theorem fusion_dominance (sem kws : List SearchHit) (wk ws : ℚ)
    (hwk : 0 ≤ wk) (hws : 0 ≤ ws) (hsum : wk + ws = 1)
    (hns : (sem.map (·.id)).Nodup) (hnk : (kws.map (·.id)).Nodup)
    (x y : SearchHit) (hx : x ∈ sem) (hy : y ∈ kws) (hxy : x.id = y.id)
    (hxc : 0 ≤ x.confidence) (hyc : 0 ≤ y.confidence) :
    (combineSearchResults sem kws wk ws).Pairwise
      (fun a b => b.combined_confidence ≤ a.combined_confidence) ∧
    (∃ e ∈ combineSearchResults sem kws wk ws,
      e.id = x.id ∧
      e.combined_confidence = x.confidence * ws + y.confidence * wk) ∧
    (∀ z ∈ sem, z.id ∉ kws.map (·.id) → z.confidence = x.confidence →
      ∀ e ∈ combineSearchResults sem kws wk ws, e.id = x.id →
      ∀ g ∈ combineSearchResults sem kws wk ws, g.id = z.id →
        g.combined_confidence ≤ e.combined_confidence) ∧
    (∀ z ∈ kws, z.id ∉ sem.map (·.id) → z.confidence = y.confidence →
      ∀ e ∈ combineSearchResults sem kws wk ws, e.id = x.id →
      ∀ g ∈ combineSearchResults sem kws wk ws, g.id = z.id →
        g.combined_confidence ≤ e.combined_confidence) := by
  have hdivs : ws / (wk + ws) = ws := by rw [hsum, div_one]
  have hdivk : wk / (wk + ws) = wk := by rw [hsum, div_one]
  have hout : combineSearchResults sem kws wk ws =
      sortDescBy (fun e => e.combined_confidence)
        (kws.foldl (combineStep ws wk)
          (sem.map fun r => ⟨r.id, r.confidence, 0, r.confidence * ws⟩)) := by
    rw [combineSearchResults_eq, hdivs, hdivk]
  rw [hout]
  set M := kws.foldl (combineStep ws wk)
    (sem.map fun r =>
      (⟨r.id, r.confidence, 0, r.confidence * ws⟩ : FusedResult)) with hM
  have hXfind : M.find? (fun a => decide (a.id = x.id)) =
      some ⟨x.id, x.confidence, y.confidence,
        x.confidence * ws + y.confidence * wk⟩ := by
    rw [hM]
    have hbase := base_find?_some ws hx hns
    have hkws : kws.find? (fun a => decide (a.id = x.id)) = some y := by
      rw [hxy]
      exact find?_of_mem_nodup_ids hy hnk
    have hmf := fold_find? ws wk kws
      (sem.map fun r => ⟨r.id, r.confidence, 0, r.confidence * ws⟩) hnk x.id
    rw [hbase, hkws] at hmf
    exact hmf
  have hMnodup : (M.map (·.id)).Nodup := by
    rw [hM]
    exact fold_ids_nodup ws wk kws _ (by rw [base_ids]; exact hns)
  have huniq : ∀ (i : String) (V : FusedResult),
      M.find? (fun a => decide (a.id = i)) = some V →
      ∀ e ∈ sortDescBy (fun e => e.combined_confidence) M, e.id = i →
        e = V := by
    intro i V hV e he heid
    rw [(perm_sortDescBy _ _).mem_iff] at he
    have he2 : M.find? (fun a => decide (a.id = e.id)) = some e :=
      find?_of_mem_nodup_ids he hMnodup
    rw [heid] at he2
    exact Option.some.inj (he2.symm.trans hV)
  refine ⟨pairwise_sortDescBy _ _, ?_, ?_, ?_⟩
  · refine ⟨⟨x.id, x.confidence, y.confidence,
      x.confidence * ws + y.confidence * wk⟩, ?_, rfl, rfl⟩
    rw [(perm_sortDescBy _ _).mem_iff]
    exact List.mem_of_find?_eq_some hXfind
  · intro z hz hznot hzc e he heid g hg hgid
    have hZfind : M.find? (fun a => decide (a.id = z.id)) =
        some ⟨z.id, z.confidence, 0, z.confidence * ws⟩ := by
      rw [hM]
      have hbase := base_find?_some ws hz hns
      have hkws : kws.find? (fun a => decide (a.id = z.id)) = none :=
        find?_id_eq_none hznot
      have hmf := fold_find? ws wk kws
        (sem.map fun r => ⟨r.id, r.confidence, 0, r.confidence * ws⟩) hnk z.id
      rw [hbase, hkws] at hmf
      exact hmf
    rw [huniq x.id _ hXfind e he heid, huniq z.id _ hZfind g hg hgid]
    show z.confidence * ws ≤ x.confidence * ws + y.confidence * wk
    rw [hzc]
    exact le_add_of_nonneg_right (mul_nonneg hyc hwk)
  · intro z hz hznot hzc e he heid g hg hgid
    have hZfind : M.find? (fun a => decide (a.id = z.id)) =
        some ⟨z.id, 0, z.confidence, z.confidence * wk⟩ := by
      rw [hM]
      have hbase := base_find?_none ws hznot
      have hkws : kws.find? (fun a => decide (a.id = z.id)) = some z :=
        find?_of_mem_nodup_ids hz hnk
      have hmf := fold_find? ws wk kws
        (sem.map fun r => ⟨r.id, r.confidence, 0, r.confidence * ws⟩) hnk z.id
      rw [hbase, hkws] at hmf
      exact hmf
    rw [huniq x.id _ hXfind e he heid, huniq z.id _ hZfind g hg hgid]
    show z.confidence * wk ≤ x.confidence * ws + y.confidence * wk
    rw [hzc]
    exact le_add_of_nonneg_left (mul_nonneg hxc hws)

theorem fusion_dominance_witness :
    (combineSearchResults [⟨"x", 1⟩, ⟨"z", 1⟩] [⟨"x", 1⟩] 0 1).Pairwise
      (fun a b => b.combined_confidence ≤ a.combined_confidence) :=
  (fusion_dominance [⟨"x", 1⟩, ⟨"z", 1⟩] [⟨"x", 1⟩] 0 1 le_rfl zero_le_one
    (zero_add 1) (by decide) (by decide) ⟨"x", 1⟩ ⟨"x", 1⟩
    (List.mem_cons_self _ _) (List.mem_singleton.2 rfl) rfl
    zero_le_one zero_le_one).1

/-! ### Chunker: termination and the 1000-character scenario -/

theorem splitTextAux_succ (text : List Char) (cs ov f start : Nat) :
    splitTextAux text cs ov (f + 1) start =
      if start < text.length then
        (if pyStrip (pySlice text start (computeEnd text cs start)) = []
          then splitTextAux text cs ov f (nextStartP text cs ov start)
          else pyStrip (pySlice text start (computeEnd text cs start)) ::
            splitTextAux text cs ov f (nextStartP text cs ov start))
      else [] := rfl

theorem computeEnd_eq (text : List Char) (cs start : Nat) :
    computeEnd text cs start =
      if start + cs < text.length then
        match searchDesc (fun i => isSentenceEnd (charAt text i) &&
            decide (i + 1 < text.length)) (start + cs)
            (start + cs - max start (start + cs - 100)) with
        | some i => i + 1
        | none =>
          match searchDesc (fun i => isWordBreak (charAt text i)) (start + cs)
              (start + cs - max start (start + cs - 50)) with
          | some i => i
          | none => start + cs
      else start + cs := rfl

theorem nextStartP_eq (text : List Char) (cs ov start : Nat) :
    nextStartP text cs ov start =
      if computeEnd text cs start < text.length
      then computeEnd text cs start - ov else computeEnd text cs start := rfl

theorem searchDesc_some_bounds {p : Nat → Bool} :
    ∀ {k i j : Nat}, searchDesc p i k = some j →
      j ≤ i ∧ i < j + k ∧ p j = true := by
  intro k
  induction k with
  | zero => intro i j h; cases h
  | succ k ih =>
    intro i j h
    unfold searchDesc at h
    by_cases hp : p i = true
    · rw [if_pos hp] at h
      cases h
      exact ⟨le_rfl, by omega, hp⟩
    · rw [if_neg hp] at h
      obtain ⟨h1, h2, h3⟩ := ih h
      exact ⟨h1.trans (Nat.sub_le i 1), by omega, h3⟩

theorem computeEnd_lower_bound (text : List Char) (start : Nat) :
    start + 402 ≤ computeEnd text 500 start := by
  rw [computeEnd_eq]
  by_cases he : start + 500 < text.length
  · rw [if_pos he]
    have hmax1 : max start (start + 500 - 100) = start + 400 := by
      rw [Nat.max_eq_right] <;> omega
    have hmax2 : max start (start + 500 - 50) = start + 450 := by
      rw [Nat.max_eq_right] <;> omega
    cases hs : searchDesc (fun i => isSentenceEnd (charAt text i) &&
        decide (i + 1 < text.length)) (start + 500)
        (start + 500 - max start (start + 500 - 100)) with
    | some i =>
      dsimp only
      obtain ⟨h1, h2, _⟩ := searchDesc_some_bounds hs
      rw [hmax1] at h2
      exact Nat.succ_le_succ (by omega)
    | none =>
      dsimp only
      cases hw : searchDesc (fun i => isWordBreak (charAt text i))
          (start + 500) (start + 500 - max start (start + 500 - 50)) with
      | some i =>
        dsimp only
        obtain ⟨h1, h2, _⟩ := searchDesc_some_bounds hw
        rw [hmax2] at h2
        show start + 402 ≤ i
        omega
      | none =>
        dsimp only
        show start + 402 ≤ start + 500
        omega
  · rw [if_neg he]
    omega

theorem nextStart_advances (text : List Char) (start : Nat) :
    start + 352 ≤ nextStartP text 500 50 start := by
  rw [nextStartP_eq]
  have hlb := computeEnd_lower_bound text start
  by_cases hel : computeEnd text 500 start < text.length
  · rw [if_pos hel]
    omega
  · rw [if_neg hel]
    omega

theorem splitTextAux_stop (text : List Char) (cs ov : Nat) {start : Nat}
    (h : ¬ start < text.length) :
    ∀ f, splitTextAux text cs ov f start = [] := by
  intro f
  cases f with
  | zero => rfl
  | succ f => rw [splitTextAux_succ, if_neg h]

theorem splitTextAux_fuel_eq (text : List Char) :
    ∀ f g start : Nat, text.length - start ≤ f → text.length - start ≤ g →
      splitTextAux text 500 50 f start = splitTextAux text 500 50 g start := by
  intro f
  induction f with
  | zero =>
    intro g start hf hg
    have h : ¬ start < text.length := by omega
    rw [splitTextAux_stop text 500 50 h, splitTextAux_stop text 500 50 h]
  | succ f ih =>
    intro g start hf hg
    by_cases h : start < text.length
    · cases g with
      | zero => omega
      | succ g =>
        rw [splitTextAux_succ, splitTextAux_succ, if_pos h, if_pos h]
        have hadv := nextStart_advances text start
        have hrec := ih g (nextStartP text 500 50 start) (by omega) (by omega)
        rw [hrec]
    · rw [splitTextAux_stop text 500 50 h, splitTextAux_stop text 500 50 h]

/-- C9: with the configured `chunk_size = 500` and `overlap = 50` the
splitting loop terminates on every input: each iteration advances the
window start by at least 352 characters (the backward boundary searches
can move the cut back at most 100 characters, far less than
`chunk_size - overlap = 450`, and no overlap step-back is applied once the
cut reaches the end of the text), so the loop runs at most
`length - start` more iterations — formally, the fuelled loop body is
independent of the fuel once the fuel covers that measure, making
`_split_text` a total function of its input. -/
theorem split_text_terminates (text : List Char) (start : Nat) :
    (start < text.length → start < nextStartP text 500 50 start) ∧
    (∀ f g : Nat, text.length - start ≤ f → text.length - start ≤ g →
      splitTextAux text 500 50 f start = splitTextAux text 500 50 g start) ∧
    splitText text =
      splitTextAux text 500 50 (text.length + 1) 0 := by
  refine ⟨fun _ => ?_,
    fun f g hf hg => splitTextAux_fuel_eq text f g start hf hg, rfl⟩
  have := nextStart_advances text start
  omega

theorem split_text_terminates_witness :
    (0 < nextStartP (List.replicate 600 'a') 500 50 0) ∧
    splitTextAux (List.replicate 600 'a') 500 50 600 0 =
      splitTextAux (List.replicate 600 'a') 500 50 601 0 :=
  ⟨(split_text_terminates (List.replicate 600 'a') 0).1
      (by rw [List.length_replicate]; decide),
   (split_text_terminates (List.replicate 600 'a') 0).2.1 600 601
     (by rw [List.length_replicate]) (by rw [List.length_replicate]; decide)⟩

theorem searchDesc_none_of_false {p : Nat → Bool} (hp : ∀ j, p j = false) :
    ∀ k i, searchDesc p i k = none := by
  intro k
  induction k with
  | zero => intro i; rfl
  | succ k ih =>
    intro i
    unfold searchDesc
    rw [hp i]
    simpa using ih (i - 1)

theorem charAt_mem (text : List Char) (i : Nat) (h : i < text.length) :
    charAt text i ∈ text := by
  unfold charAt
  rw [List.getD_eq_getElem?_getD, List.getElem?_eq_getElem h]
  exact List.getElem_mem h

theorem charAt_out (text : List Char) (i : Nat) (h : text.length ≤ i) :
    charAt text i = 'a' := by
  unfold charAt
  rw [List.getD_eq_getElem?_getD, List.getElem?_eq_none h]
  rfl

theorem computeEnd_noBoundary (text : List Char)
    (hterm : ∀ c ∈ text, isSentenceEnd c = false)
    (hws : ∀ c ∈ text, isPyWs c = false) (start : Nat) :
    computeEnd text 500 start = start + 500 := by
  have hps : ∀ j, (isSentenceEnd (charAt text j) &&
      decide (j + 1 < text.length)) = false := by
    intro j
    have hj : isSentenceEnd (charAt text j) = false := by
      by_cases h : j < text.length
      · exact hterm _ (charAt_mem text j h)
      · rw [charAt_out text j (le_of_not_lt h)]
        decide
    rw [hj, Bool.false_and]
  have hwc : ∀ c, isPyWs c = false → isWordBreak c = false := by
    intro c h
    unfold isPyWs at h
    simp only [Bool.or_eq_false_iff, decide_eq_false_iff_not] at h
    unfold isWordBreak
    simp [h.1.1.1.1.1, h.1.1.1.2]
  have hpw : ∀ j, isWordBreak (charAt text j) = false := by
    intro j
    by_cases h : j < text.length
    · exact hwc _ (hws _ (charAt_mem text j h))
    · rw [charAt_out text j (le_of_not_lt h)]
      decide
  rw [computeEnd_eq]
  by_cases he : start + 500 < text.length
  · rw [if_pos he, searchDesc_none_of_false hps,
      searchDesc_none_of_false hpw]
  · rw [if_neg he]

theorem dropWhile_eq_self_of_false {p : Char → Bool} :
    ∀ l : List Char, (∀ c ∈ l, p c = false) → l.dropWhile p = l
  | [], _ => rfl
  | c :: l, h => by
    rw [List.dropWhile_cons, h c (List.mem_cons_self c l)]
    simp

theorem pyStrip_id {l : List Char} (h : ∀ c ∈ l, isPyWs c = false) :
    pyStrip l = l := by
  unfold pyStrip
  rw [dropWhile_eq_self_of_false l h,
    dropWhile_eq_self_of_false l.reverse
      (fun c hc => h c (List.mem_reverse.1 hc))]
  exact List.reverse_reverse l

theorem splitText_noBoundary_1000 (text : List Char)
    (hlen : text.length = 1000)
    (hterm : ∀ c ∈ text, isSentenceEnd c = false)
    (hws : ∀ c ∈ text, isPyWs c = false) :
    splitText text =
      [text.take 500, (text.drop 450).take 500, text.drop 900] := by
  have hce := computeEnd_noBoundary text hterm hws
  have hce0 : computeEnd text 500 0 = 500 := by rw [hce 0]
  have hce450 : computeEnd text 500 450 = 950 := by rw [hce 450]
  have hce900 : computeEnd text 500 900 = 1400 := by rw [hce 900]
  have hns0 : nextStartP text 500 50 0 = 450 := by
    rw [nextStartP_eq, hce0, if_pos (by omega)]
  have hns450 : nextStartP text 500 50 450 = 900 := by
    rw [nextStartP_eq, hce450, if_pos (by omega)]
  have hns900 : nextStartP text 500 50 900 = 1400 := by
    rw [nextStartP_eq, hce900, if_neg (by omega)]
  have hchunk0 : pyStrip (pySlice text 0 (computeEnd text 500 0)) =
      text.take 500 := by
    rw [hce0]
    have h1 : pySlice text 0 500 = text.take 500 := rfl
    rw [h1]
    exact pyStrip_id (fun c hc =>
      hws c ((List.take_sublist 500 text).subset hc))
  have hchunk450 : pyStrip (pySlice text 450 (computeEnd text 500 450)) =
      (text.drop 450).take 500 := by
    rw [hce450]
    have h1 : pySlice text 450 950 = (text.drop 450).take 500 := rfl
    rw [h1]
    exact pyStrip_id (fun c hc => hws c ((List.drop_sublist 450 text).subset
      ((List.take_sublist 500 (text.drop 450)).subset hc)))
  have hchunk900 : pyStrip (pySlice text 900 (computeEnd text 500 900)) =
      text.drop 900 := by
    rw [hce900]
    have h1 : pySlice text 900 1400 = (text.drop 900).take 500 := rfl
    rw [h1, List.take_of_length_le (by rw [List.length_drop, hlen]; omega)]
    exact pyStrip_id (fun c hc =>
      hws c ((List.drop_sublist 900 text).subset hc))
  have hne0 : text.take 500 ≠ [] := by
    intro hnil
    have hl : (text.take 500).length = 0 := by rw [hnil]; rfl
    rw [List.length_take, hlen] at hl
    omega
  have hne450 : (text.drop 450).take 500 ≠ [] := by
    intro hnil
    have hl : ((text.drop 450).take 500).length = 0 := by rw [hnil]; rfl
    rw [List.length_take, List.length_drop, hlen] at hl
    omega
  have hne900 : text.drop 900 ≠ [] := by
    intro hnil
    have hl : (text.drop 900).length = 0 := by rw [hnil]; rfl
    rw [List.length_drop, hlen] at hl
    omega
  show splitTextAux text 500 50 (text.length + 1) 0 = _
  rw [hlen]
  rw [splitTextAux_succ, if_pos (show (0 : Nat) < text.length by omega),
    hchunk0, if_neg hne0, hns0]
  rw [show (1000 : Nat) = 999 + 1 from rfl, splitTextAux_succ,
    if_pos (show (450 : Nat) < text.length by omega),
    hchunk450, if_neg hne450, hns450]
  rw [show (999 : Nat) = 998 + 1 from rfl, splitTextAux_succ,
    if_pos (show (900 : Nat) < text.length by omega),
    hchunk900, if_neg hne900, hns900]
  rw [show (998 : Nat) = 997 + 1 from rfl, splitTextAux_succ,
    if_neg (show ¬ (1400 : Nat) < text.length by omega)]

/-- C2 counterexample: on the concrete 1000-character input with no
sentence-terminal characters and no whitespace (1000 copies of `'a'`),
`_split_text` with `chunk_size = 500, overlap = 50` produces 3 chunks
(windows `[0,500)`, `[450,950)`, `[900,1000)`), not the 2 chunks the
claim states. -/
theorem split_text_1000_counterexample :
    (splitText (List.replicate 1000 'a')).length ≠ 2 := by
  have h := splitText_noBoundary_1000 (List.replicate 1000 'a')
    (by rw [List.length_replicate])
    (fun c hc => by rw [List.eq_of_mem_replicate hc]; decide)
    (fun c hc => by rw [List.eq_of_mem_replicate hc]; decide)
  rw [h]
  intro hc
  simp only [List.length_cons, List.length_nil] at hc
  omega

/-- C2 (amended): for an input of exactly 1000 characters containing no
sentence-terminal characters and no whitespace, splitting with
`chunk_size = 500, overlap = 50` produces exactly 3 chunks: characters
`[0, 500)`, `[450, 950)` (the second chunk indeed starts at character
index 450), and `[900, 1000)` — the final 100-character tail window is
emitted as a third chunk. -/
theorem split_text_1000_three_chunks (text : List Char)
    (hlen : text.length = 1000)
    (hterm : ∀ c ∈ text, isSentenceEnd c = false)
    (hws : ∀ c ∈ text, isPyWs c = false) :
    splitText text =
      [text.take 500, (text.drop 450).take 500, text.drop 900] ∧
    (splitText text).length = 3 := by
  have h := splitText_noBoundary_1000 text hlen hterm hws
  refine ⟨h, ?_⟩
  rw [h]
  rfl

theorem split_text_1000_three_chunks_witness :
    splitText (List.replicate 1000 'a') =
      [(List.replicate 1000 'a').take 500,
        ((List.replicate 1000 'a').drop 450).take 500,
        (List.replicate 1000 'a').drop 900] ∧
    (splitText (List.replicate 1000 'a')).length = 3 :=
  split_text_1000_three_chunks (List.replicate 1000 'a')
    (by rw [List.length_replicate])
    (fun c hc => by rw [List.eq_of_mem_replicate hc]; decide)
    (fun c hc => by rw [List.eq_of_mem_replicate hc]; decide)
